import Mathlib

/-!
Shallow embedding of the ADS-B track-reconstruction pipeline from
`src/atmdatatools/adsb_tools.py` (functions `read_adsb`,
`read_adsb_byflightid`, `WSSS_arrdep`, `WSSL_arrdep`) and
`src/ATM-datatools/adsb_tools.py` (functions `adsb_preprocessing`,
`read_adsb_byflightid`).

Modelling conventions:
* a pandas DataFrame row becomes a record; the table is a `List` in feed order;
* floats become `ℚ` (heights, latitudes, longitudes, raw time-of-day seconds)
  and timestamps become `ℤ` epoch seconds;
* `NaN`-able CSV cells become `Option` fields, `df.dropna` keeps rows where
  every required field is present;
* Python truthiness of an optional numeric keyword argument (`if floor:`)
  is modelled by `configuredQ` / `configuredNat`: `None` and `0` are falsy;
* a pandas operation that raises (`.index[0]` on an empty frame,
  column access on the empty accumulated frame) makes the modelled
  function return `none`.
-/

namespace ADSB

/-- Raw CSV row after column selection, in feed order.  Fields mirror the
columns `073:071_073TimeforPos`, `131:Latitude`, `131:Longitude`,
`140:GeometricHeight`, `170:TargetID`; `none` models a missing (NaN) cell. -/
structure RawRow where
  timeforpos : Option ℚ
  lat : Option ℚ
  lon : Option ℚ
  height : Option ℚ
  tid : Option String
deriving Repr, DecidableEq

/-- Row after `dropna`, `astype` and identifier stripping. -/
structure NRow where
  timeforpos : ℚ
  lat : ℚ
  lon : ℚ
  height : ℚ
  id : String
deriving Repr, DecidableEq

/-- A fix of the output table: columns `id`, `lat`, `lon`, `height` and the
absolute timestamp `t` in epoch seconds (the `datetime` / `unix_timestamp`
columns collapse to `t`). -/
structure Fix where
  id : String
  lat : ℚ
  lon : ℚ
  height : ℚ
  t : ℤ
deriving Repr, DecidableEq

/-- Python `str.strip()`: drop whitespace from both ends. -/
def trimId (s : String) : String :=
  ⟨((s.data.dropWhile (fun c => c.isWhitespace)).reverse.dropWhile
      (fun c => c.isWhitespace)).reverse⟩

/-- Regex `^0+$` of the source: the identifier is a nonempty run of `'0'`. -/
def allZeroId (s : String) : Bool :=
  s.length != 0 && s.data.all (fun c => c == '0')

/-- Model of `df.dropna()` followed by `astype`: keep rows with all five
fields present. -/
def dropnaRows (rows : List RawRow) : List NRow :=
  rows.filterMap fun r =>
    match r.timeforpos, r.lat, r.lon, r.height, r.tid with
    | some tp, some la, some lo, some h, some i => some ⟨tp, la, lo, h, i⟩
    | _, _, _, _, _ => none

/-- Model of `df['id'] = df['id'].str.strip()`. -/
def stripIds (rows : List NRow) : List NRow :=
  rows.map fun r => { r with id := trimId r.id }

/-- Model of `df = df.loc[df.id.str.len() != 0]`. -/
def dropEmptyIds (rows : List NRow) : List NRow :=
  rows.filter fun r => r.id.length != 0

/-- Model of dropping ids matching `^0+$`. -/
def dropZeroIds (rows : List NRow) : List NRow :=
  rows.filter fun r => !allZeroId r.id

/-- Python truthiness of an optional numeric kwarg: `None` and `0` are falsy. -/
def configuredQ : Option ℚ → Bool
  | none => false
  | some x => x != 0

/-- Model of `if floor: df = df.loc[df.height >= floor]`. -/
def applyFloor (fl : Option ℚ) (rows : List NRow) : List NRow :=
  if configuredQ fl then rows.filter (fun r => decide (fl.getD 0 ≤ r.height)) else rows

/-- Model of `if ceiling: df = df.loc[df.height <= ceiling]`. -/
def applyCeiling (ce : Option ℚ) (rows : List NRow) : List NRow :=
  if configuredQ ce then rows.filter (fun r => decide (r.height ≤ ce.getD 0)) else rows

/-- The record normalizer: column coercion, id stripping, invalid-id dropping,
then the optional altitude floor and ceiling, in source order. -/
def normalize (fl ce : Option ℚ) (rows : List RawRow) : List NRow :=
  applyCeiling ce (applyFloor fl (dropZeroIds (dropEmptyIds (stripIds (dropnaRows rows)))))

/-- Time-of-day seconds kept by `pd.to_datetime(·, unit='s').dt.time` rendered
through `str(·)[0:8]`: whole seconds since midnight, wrapped modulo one day. -/
def timeOfDaySec (tp : ℚ) : ℤ :=
  (Int.floor tp) % 86400

/-- Stamp a normalized row with a calendar date given as the epoch seconds
`dateBase` of its midnight, producing an output fix. -/
def stamp (dateBase : ℤ) (r : NRow) : Fix :=
  ⟨r.id, r.lat, r.lon, r.height, dateBase + timeOfDaySec r.timeforpos⟩

/-- Index of the first minimum: `i` is the index of the head of the remaining
list, `bi`/`bv` the best index and value so far. -/
def minIdxAux (bi : Nat) (bv : ℚ) (i : Nat) : List ℚ → Nat
  | [] => bi
  | x :: xs => if x < bv then minIdxAux i x (i + 1) xs else minIdxAux bi bv (i + 1) xs

/-- Model of `df.loc[df['timeforpos'] == df['timeforpos'].min()].index[0]`:
position of the first row attaining the minimum time-of-day. -/
def dayidxOf : List ℚ → Nat
  | [] => 0
  | tp :: tps => minIdxAux 0 tp 1 tps

/-- Day-boundary resolver of `read_adsb`: rows strictly before the first
minimum time-of-day get the previous day (`ref - 86400`), rows from it onward
get the reference day.  On an empty table `.index[0]` raises `IndexError`,
modelled as `none`. -/
def resolveDay (ref : ℤ) (rows : List NRow) : Option (List Fix) :=
  match rows with
  | [] => none
  | _ :: _ =>
    let d := dayidxOf (rows.map (fun r => r.timeforpos))
    some ((rows.take d).map (stamp (ref - 86400)) ++ (rows.drop d).map (stamp ref))

/-- Decimal digit character, as in the f-string rendering of a number. -/
def natDigitChar : Nat → Char
  | 0 => '0'
  | 1 => '1'
  | 2 => '2'
  | 3 => '3'
  | 4 => '4'
  | 5 => '5'
  | 6 => '6'
  | 7 => '7'
  | 8 => '8'
  | 9 => '9'
  | _ => '*'

/-- Fuel-driven decimal rendering loop, most significant digit first;
`fuel` bounds the recursion depth as in the core `Nat.toDigitsCore`. -/
def natDigitsAux : Nat → Nat → List Char
  | 0, _ => []
  | fuel + 1, n =>
    if n < 10 then [natDigitChar n]
    else natDigitsAux fuel (n / 10) ++ [natDigitChar (n % 10)]

/-- Decimal digit string of a natural number, most significant digit first. -/
def natDigits (n : Nat) : List Char :=
  natDigitsAux (n + 1) n

/-- Decimal rendering of a natural number as a string. -/
def natRepr (n : Nat) : String :=
  ⟨natDigits n⟩

/-- The f-string `f'{i}_{suffix}'` of the segmenter. -/
def suffixName (base : String) (k : Nat) : String :=
  base ++ "_" ++ natRepr k

/-- Resolved identifier of the `c`-th segment (0-indexed) of a base id:
the first segment keeps the base identifier. -/
def segLabel (base : String) (c : Nat) : String :=
  if c = 0 then base else suffixName base c

/-- Gap test of the segmenter: `timediff > 15 min` or `timediff < -15 min`,
with `timediff = next.t - current.t` in seconds. -/
def bigGap (a b : Fix) : Bool :=
  decide (900 < b.t - a.t) || decide (b.t - a.t < -900)

/-- Positions (from `i`) of fixes followed by a big gap; the last row of a
group never qualifies (its shifted neighbour is NaT). -/
def gapIndicesAux (i : Nat) : List Fix → List Nat
  | a :: b :: rest =>
    if bigGap a b then i :: gapIndicesAux (i + 1) (b :: rest)
    else gapIndicesAux (i + 1) (b :: rest)
  | _ => []

/-- Model of the `indices` of the segmenter: positions of the rows whose
successor is more than 15 minutes away. -/
def gapIndices (l : List Fix) : List Nat :=
  gapIndicesAux 0 l

/-- Claim-side reading of a split boundary: position `j` is followed in `l`
by a fix more than 15 minutes away. -/
def gapAt (l : List Fix) (j : Nat) : Bool :=
  match l[j]?, l[j + 1]? with
  | some a, some b => bigGap a b
  | _, _ => false

/-- Model of `tmp.loc[idx+1:, 'id'] = newid`: rewrite the identifier of every
row at position `cut` or later. -/
def overwriteTail (newid : String) (cut : Nat) (l : List Fix) : List Fix :=
  l.mapIdx fun p f => if cut ≤ p then { f with id := newid } else f

/-- One iteration of the suffixing loop: overwrite the identifiers from the
row after the gap onward and advance the suffix counter. -/
def retagStep (base : String) (acc : List Fix × Nat) (j : Nat) : List Fix × Nat :=
  (overwriteTail (suffixName base acc.2) (j + 1) acc.1, acc.2 + 1)

/-- The suffixing loop of the segmenter on one identifier group: for each gap
position in order, overwrite the whole remaining tail with the next suffix. -/
def retagGroup (base : String) (l : List Fix) : List Fix :=
  ((gapIndices l).foldl (retagStep base) (l, 1)).1

/-- Number of split boundaries of `l` strictly before position `p`: the count
of adjacent pairs more than 15 minutes apart that start below `p`. -/
def gapsBefore (l : List Fix) (p : Nat) : Nat :=
  (List.range p).countP (gapAt l)

/-- Distinct values in order of first appearance. -/
def distinctKeys (l : List String) : List String :=
  l.foldl (fun acc s => if s ∈ acc then acc else acc ++ [s]) []

/-- Lexicographic comparison of identifier strings by code point. -/
def keyLT : List Char → List Char → Bool
  | [], [] => false
  | [], _ :: _ => true
  | _ :: _, [] => false
  | a :: as, b :: bs => decide (a < b) || (a == b && keyLT as bs)

/-- Non-strict key order used to sort the group keys. -/
def keyLE (a b : String) : Bool :=
  a == b || keyLT a.data b.data

/-- Insertion into a sorted key list. -/
def insertKey (s : String) : List String → List String
  | [] => [s]
  | k :: ks => if keyLE s k then s :: k :: ks else k :: insertKey s ks

/-- Insertion sort of the key list (pandas `groupby` sorts group keys). -/
def sortKeys : List String → List String
  | [] => []
  | k :: ks => insertKey k (sortKeys ks)

/-- Model of `by_id.groups.keys()`: the distinct identifiers, sorted. -/
def groupKeys (l : List Fix) : List String :=
  sortKeys (distinctKeys (l.map (fun f => f.id)))

/-- Model of `by_id.get_group(k)`: the fixes with identifier `k`, in feed
order.  Also the track of a resolved identifier in an output table. -/
def groupOf (l : List Fix) (k : String) : List Fix :=
  l.filter (fun f => f.id == k)

/-- The track segmenter: re-tag each identifier group and accumulate the
groups in key order (`df2 = pd.concat([df2, tmp])`). -/
def segmentAll (l : List Fix) : List Fix :=
  (groupKeys l).foldl (fun acc k => acc ++ retagGroup k (groupOf l k)) []

/-- Positional selection helper for `iloc[::n]`: keep indices divisible by
`n`, counting from `i`. -/
def everyNthAux (n : Nat) (i : Nat) : List Fix → List Fix
  | [] => []
  | f :: fs => if i % n = 0 then f :: everyNthAux n (i + 1) fs else everyNthAux n (i + 1) fs

/-- Model of `df2.iloc[::n, :]`. -/
def everyNth (n : Nat) (l : List Fix) : List Fix :=
  everyNthAux n 0 l

/-- Python truthiness of the optional integer `downsample` kwarg. -/
def configuredNat : Option Nat → Bool
  | none => false
  | some n => n != 0

/-- Model of `if downsample: df2 = df2.iloc[::downsample, :]`. -/
def applyDownsample (dsOpt : Option Nat) (l : List Fix) : List Fix :=
  if configuredNat dsOpt then everyNth (dsOpt.getD 1) l else l

/-- Minimum-length pruning: collect the resolved identifiers whose
`value_counts()` is at most 2 and drop every row carrying one of them. -/
def prune (l : List Fix) : List Fix :=
  let dropids :=
    (distinctKeys (l.map (fun f => f.id))).filter
      (fun k => decide (l.countP (fun f => f.id == k) ≤ 2))
  l.filter (fun f => !(dropids.contains f.id))

/-- The optional kwargs of `atmdatatools.read_adsb`, after default
resolution. -/
structure Kwargs where
  downsample : Option Nat
  floor : Option ℚ
  ceiling : Option ℚ
deriving Repr, DecidableEq

/-- Kwarg values of `atmdatatools.read_adsb` when the caller supplies none:
every `kwargs.get` falls back to `None`. -/
def defaultKwargs : Kwargs :=
  ⟨none, none, none⟩

/-- The table of `read_adsb` just after segmentation and downsampling,
before minimum-length pruning. -/
def dsTable (rows : List RawRow) (ref : ℤ) (kw : Kwargs) : Option (List Fix) :=
  match resolveDay ref (normalize kw.floor kw.ceiling rows) with
  | none => none
  | some fixes => some (applyDownsample kw.downsample (segmentAll fixes))

/-- Model of `atmdatatools.read_adsb`: normalize, resolve the day boundary,
segment, downsample, prune.  `ref` is the epoch-second midnight of the
`datestr` date; `none` models an uncaught pandas exception. -/
def read_adsb (rows : List RawRow) (ref : ℤ) (kw : Kwargs) : Option (List Fix) :=
  (dsTable rows ref kw).map prune

/-- Keyword arguments as supplied by the caller: `none` means the kwarg is
absent and the entry point's own default applies. -/
structure SuppliedKw where
  downsample : Option (Option Nat)
  floor : Option (Option ℚ)
  ceiling : Option (Option ℚ)
deriving Repr, DecidableEq

/-- A call that supplies no keyword arguments at all. -/
def noKw : SuppliedKw :=
  ⟨none, none, none⟩

/-- Items of the pattern fed to `df['id'].str.contains`: pandas interprets the
flight id as a regular expression; the model covers literal characters and
the `.` wildcard. -/
inductive PatItem where
  | lit (c : Char)
  | dot
deriving Repr, DecidableEq

/-- Read a flight-id string as a pattern. -/
def toPattern (p : String) : List PatItem :=
  p.data.map fun c => if c == '.' then PatItem.dot else PatItem.lit c

/-- Match a pattern against the front of a character list. -/
def matchHere : List PatItem → List Char → Bool
  | [], _ => true
  | _ :: _, [] => false
  | i :: ps, c :: cs =>
    (match i with
     | PatItem.lit d => c == d
     | PatItem.dot => true) && matchHere ps cs

/-- Unanchored search: try the pattern at every start position. -/
def reSearch (ps : List PatItem) : List Char → Bool
  | [] => matchHere ps []
  | c :: cs => matchHere ps (c :: cs) || reSearch ps cs

/-- Model of `df['id'].str.contains(flightid)` on one identifier. -/
def strContains (s pat : String) : Bool :=
  reSearch (toPattern pat) s.data

/-- Model of `atmdatatools.read_adsb_byflightid`: resolve kwargs (every
default is `None`), run `read_adsb`, keep fixes whose identifier matches the
flight id pattern. -/
def read_adsb_byflightid (rows : List RawRow) (ref : ℤ) (flightid : String)
    (skw : SuppliedKw) : Option (List Fix) :=
  let kw : Kwargs :=
    ⟨skw.downsample.getD none, skw.floor.getD none, skw.ceiling.getD none⟩
  match read_adsb rows ref kw with
  | none => none
  | some l => some (l.filter fun f => strContains f.id flightid)

namespace ATM

/-- Default of the `downsample` kwarg of the `ATM-datatools` entry points. -/
def downsampleDefault : Option Nat := some 0

/-- Default of the `floor` kwarg of the `ATM-datatools` entry points:
100 feet, not `None`. -/
def floorDefault : Option ℚ := some 100

/-- Default of the `ceiling` kwarg of the `ATM-datatools` entry points. -/
def ceilingDefault : Option ℚ := some 0

/-- Model of `ATM-datatools.adsb_preprocessing`: like `read_adsb` but every
row is stamped with the reference date (no day-boundary correction).  On an
empty normalized table the accumulated frame has no `id` column and
`df2.id.value_counts()` raises `AttributeError`, modelled as `none`. -/
def adsb_preprocessing (rows : List RawRow) (ref : ℤ) (dsOpt : Option Nat)
    (fl ce : Option ℚ) : Option (List Fix) :=
  let n := normalize fl ce rows
  if n.isEmpty then none
  else some (prune (applyDownsample dsOpt (segmentAll (n.map (stamp ref)))))

/-- Model of `ATM-datatools.read_adsb_byflightid`: resolve kwargs against
this module's defaults (`downsample=0`, `floor=100`, `ceiling=0`), preprocess,
filter by the flight id pattern. -/
def read_adsb_byflightid (rows : List RawRow) (ref : ℤ) (flightid : String)
    (skw : SuppliedKw) : Option (List Fix) :=
  let dsOpt := skw.downsample.getD downsampleDefault
  let fl := skw.floor.getD floorDefault
  let ce := skw.ceiling.getD ceilingDefault
  match adsb_preprocessing rows ref dsOpt fl ce with
  | none => none
  | some l => some (l.filter fun f => strContains f.id flightid)

end ATM

/-- Ordered coordinate of a track path: `(longitude, latitude, height)`,
the component order of `Point(xyz)` built from `zip(lon, lat, height)`. -/
abbrev Coord := ℚ × ℚ × ℚ

/-- Model of `WSSS_arrdep(p, arrdep)`: bounding-box test on the last
(`'arr'`), first (`'dep'`) or either (`None`) coordinate of the path; any
other mode raises `ValueError`, modelled as `none`.  An empty coordinate
sequence has no first or last point, also `none`. -/
def WSSS_arrdep (p : List Coord) (arrdep : Option String) : Option Bool :=
  match arrdep with
  | some "arr" =>
    (p.getLast?).map fun c =>
      decide (103.9 ≤ c.1 ∧ c.1 ≤ 104.1) && decide (1.3 ≤ c.2.1 ∧ c.2.1 ≤ 1.4)
  | some "dep" =>
    (p.head?).map fun c =>
      decide (103.9 ≤ c.1 ∧ c.1 ≤ 104.1) && decide (1.3 ≤ c.2.1 ∧ c.2.1 ≤ 1.4)
  | none =>
    match p.getLast?, p.head? with
    | some cl, some ch =>
      some ((decide (103.9 ≤ cl.1 ∧ cl.1 ≤ 104.1) && decide (1.3 ≤ cl.2.1 ∧ cl.2.1 ≤ 1.4)) ||
            (decide (103.9 ≤ ch.1 ∧ ch.1 ≤ 104.1) && decide (1.3 ≤ ch.2.1 ∧ ch.2.1 ≤ 1.4)))
    | _, _ => none
  | some _ => none

/-- Model of `WSSL_arrdep(p, arrdep)`, the WSSL bounding box. -/
def WSSL_arrdep (p : List Coord) (arrdep : Option String) : Option Bool :=
  match arrdep with
  | some "arr" =>
    (p.getLast?).map fun c =>
      decide (103.86 ≤ c.1 ∧ c.1 ≤ 103.88) && decide (1.40 ≤ c.2.1 ∧ c.2.1 ≤ 1.43)
  | some "dep" =>
    (p.head?).map fun c =>
      decide (103.86 ≤ c.1 ∧ c.1 ≤ 103.88) && decide (1.40 ≤ c.2.1 ∧ c.2.1 ≤ 1.43)
  | none =>
    match p.getLast?, p.head? with
    | some cl, some ch =>
      some ((decide (103.86 ≤ cl.1 ∧ cl.1 ≤ 103.88) && decide (1.40 ≤ cl.2.1 ∧ cl.2.1 ≤ 1.43)) ||
            (decide (103.86 ≤ ch.1 ∧ ch.1 ≤ 103.88) && decide (1.40 ≤ ch.2.1 ∧ ch.2.1 ≤ 1.43)))
    | _, _ => none
  | some _ => none

/-- Claim-side predicate: the `(lon, lat)` of a coordinate lies in the WSSS
bounding box. -/
def inWSSSBox (c : Coord) : Prop :=
  103.9 ≤ c.1 ∧ c.1 ≤ 104.1 ∧ 1.3 ≤ c.2.1 ∧ c.2.1 ≤ 1.4

/-- Claim-side predicate: the `(lon, lat)` of a coordinate lies in the WSSL
bounding box. -/
def inWSSLBox (c : Coord) : Prop :=
  103.86 ≤ c.1 ∧ c.1 ≤ 103.88 ∧ 1.40 ≤ c.2.1 ∧ c.2.1 ≤ 1.43

/-- Claim-side predicate: every pair of consecutive fixes of the list is at
most 15 minutes (900 seconds) apart. -/
def chainBounded : List Fix → Prop
  | _ :: [] => True
  | [] => True
  | a :: b :: rest => (b.t - a.t).natAbs ≤ 900 ∧ chainBounded (b :: rest)

/-- Boolean companion of `chainBounded`. -/
def chainOKb : List Fix → Bool
  | _ :: [] => true
  | [] => true
  | a :: b :: rest => decide ((b.t - a.t).natAbs ≤ 900) && chainOKb (b :: rest)

/-- Claim-side predicate: `pat` occurs inside `s` as a contiguous substring. -/
def SubstrOf (pat s : List Char) : Prop :=
  ∃ l r, s = l ++ pat ++ r

/-- Shorthand for building a concrete raw row at latitude 1, longitude 103. -/
def mkRow (tp : ℚ) (ht : ℚ) (i : String) : RawRow :=
  ⟨some tp, some 1, some 103, some ht, some i⟩

/-- Shorthand for building a concrete output fix at latitude 1, longitude
103. -/
def mkFix (i : String) (ht : ℚ) (ts : ℤ) : Fix :=
  ⟨i, 1, 103, ht, ts⟩

/-- Concrete input for the gap-invariant counterexample: one identifier whose
fixes are 600 seconds apart, fed through a downsample stride of 2. -/
def rowsC3 : List RawRow :=
  [mkRow 0 200 "A", mkRow 600 200 "A", mkRow 1200 200 "A", mkRow 1800 200 "A",
   mkRow 2400 200 "A", mkRow 3000 200 "A", mkRow 3600 200 "A"]

/-- Kwargs requesting a downsample stride of 2 and no altitude bounds. -/
def kwC3 : Kwargs :=
  ⟨some 2, none, none⟩

/-- Output of `read_adsb rowsC3 0 kwC3`: the surviving fixes of track `A` are
1200 seconds apart. -/
def outC3 : List Fix :=
  [mkFix "A" 200 0, mkFix "A" 200 1200, mkFix "A" 200 2400, mkFix "A" 200 3600]

/-- Concrete input for the default-altitude counterexample: identifier `AAA`
flies at 50 ft, identifier `BBB` at 200 ft. -/
def rowsC6 : List RawRow :=
  [mkRow 0 50 "AAA", mkRow 10 200 "BBB", mkRow 60 50 "AAA", mkRow 70 200 "BBB",
   mkRow 120 50 "AAA", mkRow 130 200 "BBB"]

/-- The three `AAA` fixes of `rowsC6` as output fixes at the reference date. -/
def outC6 : List Fix :=
  [mkFix "AAA" 50 0, mkFix "AAA" 50 60, mkFix "AAA" 50 120]

/-- Concrete input for the flight-id counterexample: three fixes of the
identifier `ABC`. -/
def rowsC8 : List RawRow :=
  [mkRow 0 200 "ABC", mkRow 60 200 "ABC", mkRow 120 200 "ABC"]

/-- Output of the pipeline on `rowsC8`. -/
def outC8 : List Fix :=
  [mkFix "ABC" 200 0, mkFix "ABC" 200 60, mkFix "ABC" 200 120]

/-- Concrete gap-free raw input for the gap-invariant witness. -/
def rowsC3w : List RawRow :=
  [mkRow 0 200 "A", mkRow 600 200 "A", mkRow 1200 200 "A"]

/-- Stamped fixes of `rowsC3w` at reference 0. -/
def fixesC3w : List Fix :=
  [mkFix "A" 200 0, mkFix "A" 200 600, mkFix "A" 200 1200]

/-- Pipeline output of `rowsC3w`: identical to its stamped fixes. -/
def outC3w : List Fix :=
  [mkFix "A" 200 0, mkFix "A" 200 600, mkFix "A" 200 1200]

/-- Concrete already-segmented input for the idempotence witness. -/
def rowsC9 : List Fix :=
  [mkFix "B" 200 0, mkFix "A" 200 100]

/-- Concrete segmenter group with exactly three more-than-15-minute gaps
(after positions 1, 2 and 3). -/
def rowsC2g : List Fix :=
  [mkFix "A" 200 0, mkFix "A" 200 100, mkFix "A" 200 2000, mkFix "A" 200 4000,
   mkFix "A" 200 6000, mkFix "A" 200 6100]

/-- Concrete normalized input for the day-boundary witness: two rows just
before midnight, two just after. -/
def rowsC1n : List NRow :=
  [⟨86280, 1, 103, 200, "UAL123"⟩, ⟨86340, 1, 103, 200, "UAL123"⟩,
   ⟨10, 1, 103, 200, "UAL123"⟩, ⟨20, 1, 103, 200, "UAL123"⟩]

/-- Output of `resolveDay 0 rowsC1n`: the first two rows land on the previous
day. -/
def outC1 : List Fix :=
  [mkFix "UAL123" 200 (-120), mkFix "UAL123" 200 (-60),
   mkFix "UAL123" 200 10, mkFix "UAL123" 200 20]

/-- Concrete input for the pruning witness: two fixes of `CCC`, three of
`BBB`. -/
def rowsC4 : List RawRow :=
  [mkRow 0 200 "CCC", mkRow 10 200 "BBB", mkRow 60 200 "CCC",
   mkRow 70 200 "BBB", mkRow 130 200 "BBB"]

/-- Table of `rowsC4` after segmentation and (absent) downsampling: groups in
sorted key order. -/
def tblC4 : List Fix :=
  [mkFix "BBB" 200 10, mkFix "BBB" 200 70, mkFix "BBB" 200 130,
   mkFix "CCC" 200 0, mkFix "CCC" 200 60]

/-- Final output of `read_adsb` on `rowsC4`: only the three `BBB` fixes. -/
def outC4 : List Fix :=
  [mkFix "BBB" 200 10, mkFix "BBB" 200 70, mkFix "BBB" 200 130]

/-! General lemmas about the embedding. -/

theorem chainBounded_iff_chainOKb : ∀ l : List Fix, chainBounded l ↔ chainOKb l = true
  | [] => by simp [chainBounded, chainOKb]
  | [_] => by simp [chainBounded, chainOKb]
  | a :: b :: rest => by
    simp [chainBounded, chainOKb, chainBounded_iff_chainOKb (b :: rest)]

instance : DecidablePred chainBounded := fun l =>
  decidable_of_iff _ (chainBounded_iff_chainOKb l).symm

theorem applyFloor_none (l : List NRow) : applyFloor none l = l := by
  simp [applyFloor, configuredQ]

theorem applyFloor_zero (l : List NRow) : applyFloor (some 0) l = l := by
  simp [applyFloor, configuredQ]

theorem applyCeiling_none (l : List NRow) : applyCeiling none l = l := by
  simp [applyCeiling, configuredQ]

theorem applyCeiling_zero (l : List NRow) : applyCeiling (some 0) l = l := by
  simp [applyCeiling, configuredQ]

/-! C10.  Implicit zero-bound edge case: a floor or ceiling supplied as `0` is
falsy in `if floor:` / `if ceiling:`, so the filter is skipped exactly as for
an unconfigured bound. -/

/-- C10: supplying `floor=0` or `ceiling=0` applies no altitude filter at all;
the normalizer behaves exactly as with the bound unconfigured, so a floor of 0
does not drop rows with negative height. -/
theorem zero_bounds_skip_altitude_filter (l : List NRow) (fl ce : Option ℚ)
    (rows : List RawRow) :
    applyFloor (some 0) l = l ∧ applyCeiling (some 0) l = l ∧
    normalize (some 0) ce rows = normalize none ce rows ∧
    normalize fl (some 0) rows = normalize fl none rows := by
  refine ⟨applyFloor_zero l, applyCeiling_zero l, ?_, ?_⟩
  · simp [normalize, applyFloor_zero, applyFloor_none]
  · simp [normalize, applyCeiling_zero, applyCeiling_none]

/-! C6.  Default altitude bounds.  In `atmdatatools` every kwarg defaults to
`None` and no altitude filtering happens; but in `ATM-datatools` the entry
points default `floor` to `100`, which filters out every row below 100 ft. -/

/-- C6 counterexample: calling the `ATM-datatools` flight-id query without
supplying `floor`/`ceiling` silently drops the whole 50 ft track `AAA`
(empty result), while the very same call with an explicit `floor=None`
returns its three fixes. -/
theorem atm_default_floor_filters_counterexample :
    ATM.read_adsb_byflightid rowsC6 0 "AAA" noKw = some [] ∧
    ATM.read_adsb_byflightid rowsC6 0 "AAA" ⟨none, some none, none⟩ = some outC6 := by
  exact ⟨by decide, by decide⟩

/-- C6 amended: with floor and ceiling unsupplied, the `atmdatatools` entry
points resolve both to `None` and apply no altitude filtering, and the
`ATM-datatools` ceiling default `0` is also a no-op; but the `ATM-datatools`
floor default is `100`, so rows with height below 100 ft are dropped. -/
theorem default_altitude_bounds (l : List NRow) :
    applyFloor defaultKwargs.floor l = l ∧
    applyCeiling defaultKwargs.ceiling l = l ∧
    applyCeiling ATM.ceilingDefault l = l ∧
    applyFloor ATM.floorDefault l = l.filter (fun r => decide ((100 : ℚ) ≤ r.height)) := by
  refine ⟨applyFloor_none l, applyCeiling_none l, applyCeiling_zero l, ?_⟩
  simp [applyFloor, ATM.floorDefault, configuredQ]

/-! C7.  Empty input: both pipelines raise on an empty normalized table
(`.index[0]` on the empty frame in `read_adsb`, `df2.id` on the column-less
empty frame in `adsb_preprocessing`); neither returns an empty table. -/

/-- C7 counterexample: on empty input both pipelines fail (modelled `none`)
instead of returning the empty table. -/
theorem empty_input_fails_counterexample :
    read_adsb [] 0 defaultKwargs = none ∧
    ATM.adsb_preprocessing [] 0 none none none = none ∧
    read_adsb [] 0 defaultKwargs ≠ some [] := by
  exact ⟨by decide, by decide, by decide⟩

/-- C7 amended: each pipeline fails exactly when the normalized row sequence
is empty; on any non-empty normalized input it returns a table. -/
theorem pipeline_none_iff_empty (rows : List RawRow) (ref : ℤ) (kw : Kwargs)
    (dsOpt : Option Nat) (fl ce : Option ℚ) :
    (read_adsb rows ref kw = none ↔ normalize kw.floor kw.ceiling rows = []) ∧
    (ATM.adsb_preprocessing rows ref dsOpt fl ce = none ↔ normalize fl ce rows = []) := by
  constructor
  · rcases hn : normalize kw.floor kw.ceiling rows with _ | ⟨a, l⟩ <;>
      simp [read_adsb, dsTable, resolveDay, hn]
  · rcases hn : normalize fl ce rows with _ | ⟨a, l⟩ <;>
      simp [ATM.adsb_preprocessing, hn]

/-! C5.  Airport classification for the two known airports. -/

/-- C5: for a non-empty coordinate sequence, arrival mode tests the last
coordinate against the airport box, departure mode the first, and unspecified
mode (`None`) either of the two, for both WSSS and WSSL. -/
theorem airport_classification (p : List Coord) (hne : p ≠ []) :
    (WSSS_arrdep p (some "arr") = some true ↔ inWSSSBox (p.getLast hne)) ∧
    (WSSS_arrdep p (some "dep") = some true ↔ inWSSSBox (p.head hne)) ∧
    (WSSS_arrdep p none = some true ↔
      (inWSSSBox (p.getLast hne) ∨ inWSSSBox (p.head hne))) ∧
    (WSSL_arrdep p (some "arr") = some true ↔ inWSSLBox (p.getLast hne)) ∧
    (WSSL_arrdep p (some "dep") = some true ↔ inWSSLBox (p.head hne)) ∧
    (WSSL_arrdep p none = some true ↔
      (inWSSLBox (p.getLast hne) ∨ inWSSLBox (p.head hne))) := by
  have hlast : p.getLast? = some (p.getLast hne) := List.getLast?_eq_getLast p hne
  have hhead : p.head? = some (p.head hne) := List.head?_eq_head hne
  refine ⟨?_, ?_, ?_, ?_, ?_, ?_⟩ <;>
    simp [WSSS_arrdep, WSSL_arrdep, hlast, hhead, inWSSSBox, inWSSLBox, and_assoc]

/-- C5 witness: the spec's example track ending at `(104.0, 1.35, 3000)` is
classified as a WSSS arrival. -/
theorem airport_classification_witness :
    WSSS_arrdep [((104 : ℚ), (1.35 : ℚ), (3000 : ℚ))] (some "arr") = some true :=
  (airport_classification [((104 : ℚ), (1.35 : ℚ), (3000 : ℚ))]
    (by decide)).1.mpr (by norm_num [inWSSSBox, List.getLast])

/-! Lemmas about key collection, groups and pruning. -/

theorem foldl_insert_mem (xs : List String) :
    ∀ (acc : List String) (s : String),
      s ∈ xs.foldl (fun acc t => if t ∈ acc then acc else acc ++ [t]) acc ↔
        s ∈ acc ∨ s ∈ xs := by
  induction xs with
  | nil => simp
  | cons x xs ih =>
    intro acc s
    by_cases hx : x ∈ acc
    · simp only [List.foldl_cons, if_pos hx, ih]
      constructor
      · rintro (hs | hs)
        · exact Or.inl hs
        · exact Or.inr (List.mem_cons_of_mem x hs)
      · rintro (hs | hs)
        · exact Or.inl hs
        · rcases List.mem_cons.mp hs with rfl | hs
          · exact Or.inl hx
          · exact Or.inr hs
    · simp only [List.foldl_cons, if_neg hx, ih, List.mem_append,
        List.mem_singleton, List.mem_cons]
      tauto

theorem mem_distinctKeys (xs : List String) (s : String) :
    s ∈ distinctKeys xs ↔ s ∈ xs := by
  rw [distinctKeys, foldl_insert_mem]
  simp

theorem foldl_insert_nodup (xs : List String) :
    ∀ acc : List String, acc.Nodup →
      (xs.foldl (fun acc t => if t ∈ acc then acc else acc ++ [t]) acc).Nodup := by
  induction xs with
  | nil => intro acc h; simpa using h
  | cons x xs ih =>
    intro acc hacc
    by_cases hx : x ∈ acc
    · simpa [List.foldl_cons, if_pos hx] using ih acc hacc
    · rw [List.foldl_cons, if_neg hx]
      exact ih (acc ++ [x]) (by simp [List.nodup_append, hacc, hx])

theorem distinctKeys_nodup (xs : List String) : (distinctKeys xs).Nodup :=
  foldl_insert_nodup xs [] List.nodup_nil

theorem mem_groupOf {l : List Fix} {k : String} {f : Fix} :
    f ∈ groupOf l k ↔ f ∈ l ∧ f.id = k := by
  simp [groupOf]

theorem groupOf_filter (l : List Fix) (p : Fix → Bool) (k : String) :
    groupOf (l.filter p) k = (groupOf l k).filter p := by
  simp [groupOf, List.filter_filter, Bool.and_comm]

theorem groupOf_append (l₁ l₂ : List Fix) (k : String) :
    groupOf (l₁ ++ l₂) k = groupOf l₁ k ++ groupOf l₂ k := by
  simp [groupOf]

theorem mem_prune {l : List Fix} {f : Fix} :
    f ∈ prune l ↔ f ∈ l ∧ 2 < l.countP (fun g => g.id == f.id) := by
  simp only [prune, List.mem_filter, List.elem_eq_mem, Bool.not_eq_eq_eq_not,
    Bool.not_true, decide_eq_false_iff_not, mem_distinctKeys, decide_eq_true_eq]
  constructor
  · rintro ⟨hf, hdrop⟩
    refine ⟨hf, ?_⟩
    by_contra hc
    exact hdrop ⟨List.mem_map_of_mem (fun g => g.id) hf, by omega⟩
  · rintro ⟨hf, hc⟩
    exact ⟨hf, fun h => by omega⟩

theorem groupOf_prune (l : List Fix) (k : String) :
    groupOf (prune l) k =
      if 2 < l.countP (fun g => g.id == k) then groupOf l k else [] := by
  by_cases hc : 2 < l.countP (fun g => g.id == k)
  · rw [if_pos hc, prune, groupOf_filter, List.filter_eq_self]
    intro f hf
    rcases mem_groupOf.mp hf with ⟨hfl, hid⟩
    simp only [List.elem_eq_mem, Bool.not_eq_eq_eq_not, Bool.not_true,
      decide_eq_false_iff_not, List.mem_filter, mem_distinctKeys, decide_eq_true_eq]
    rintro ⟨-, hcnt⟩
    rw [hid] at hcnt
    omega
  · rw [if_neg hc, prune, groupOf_filter, List.filter_eq_nil_iff]
    intro f hf
    rcases mem_groupOf.mp hf with ⟨hfl, hid⟩
    simp only [List.elem_eq_mem, Bool.not_eq_eq_eq_not, Bool.not_true,
      decide_eq_false_iff_not, not_not, List.mem_filter, mem_distinctKeys,
      decide_eq_true_eq]
    exact ⟨List.mem_map_of_mem (fun g => g.id) hfl, by rw [hid]; omega⟩

/-! C4.  Minimum-length pruning. -/

/-- C4: relative to the downsampled table, the pruned output keeps exactly the
fixes whose resolved identifier occurs at least 3 times; an identifier with
exactly 2 fixes is removed entirely and one with exactly 3 is kept whole. -/
theorem minimum_length_pruning (rows : List RawRow) (ref : ℤ) (kw : Kwargs)
    (tbl out : List Fix)
    (htbl : dsTable rows ref kw = some tbl)
    (hout : read_adsb rows ref kw = some out) :
    (∀ f, f ∈ out ↔ f ∈ tbl ∧ 3 ≤ (groupOf tbl f.id).length) ∧
    (∀ k, (groupOf tbl k).length = 2 → groupOf out k = []) ∧
    (∀ k, (groupOf tbl k).length = 3 → groupOf out k = groupOf tbl k) := by
  have hpr : prune tbl = out := by simpa [read_adsb, htbl] using hout
  subst hpr
  have hlen : ∀ k, tbl.countP (fun g => g.id == k) = (groupOf tbl k).length := by
    intro k
    rw [groupOf, List.countP_eq_length_filter]
  refine ⟨?_, ?_, ?_⟩
  · intro f
    rw [mem_prune, hlen f.id]
    constructor
    · rintro ⟨h1, h2⟩; exact ⟨h1, by omega⟩
    · rintro ⟨h1, h2⟩; exact ⟨h1, by omega⟩
  · intro k h2
    rw [groupOf_prune, hlen, if_neg (by omega)]
  · intro k h3
    rw [groupOf_prune, hlen, if_pos (by omega)]

/-- C4 witness: on `rowsC4` the identifier `CCC` (2 fixes) vanishes from the
output. -/
theorem minimum_length_pruning_witness : groupOf outC4 "CCC" = [] :=
  (minimum_length_pruning rowsC4 0 defaultKwargs tblC4 outC4
    (by decide) (by decide)).2.1 "CCC" (by decide)

/-! Lemmas about the pattern matcher underlying `str.contains`. -/

theorem matchHere_lit : ∀ (pat s : List Char),
    matchHere (pat.map PatItem.lit) s = true ↔ ∃ r, s = pat ++ r
  | [], s => by simp [matchHere]
  | p :: ps, [] => by simp [matchHere]
  | p :: ps, c :: cs => by
    simp only [List.map_cons, matchHere, Bool.and_eq_true, beq_iff_eq,
      matchHere_lit ps cs, List.cons_append, List.cons.injEq]
    constructor
    · rintro ⟨rfl, r, rfl⟩
      exact ⟨r, rfl, rfl⟩
    · rintro ⟨r, rfl, rfl⟩
      exact ⟨rfl, r, rfl⟩

theorem reSearch_lit : ∀ (pat s : List Char),
    reSearch (pat.map PatItem.lit) s = true ↔ SubstrOf pat s
  | pat, [] => by
    rw [reSearch, matchHere_lit, SubstrOf]
    constructor
    · rintro ⟨r, hr⟩
      exact ⟨[], r, by simpa using hr⟩
    · rintro ⟨l, r, h⟩
      have h3 : l = [] ∧ pat = [] ∧ r = [] := by
        simpa [List.append_eq_nil] using h.symm
      rcases h3 with ⟨rfl, rfl, rfl⟩
      exact ⟨[], rfl⟩
  | pat, c :: cs => by
    rw [reSearch, Bool.or_eq_true, matchHere_lit, reSearch_lit pat cs, SubstrOf]
    constructor
    · rintro (⟨r, hr⟩ | ⟨l, r, hr⟩)
      · exact ⟨[], r, by simpa using hr⟩
      · exact ⟨c :: l, r, by simp [hr]⟩
    · rintro ⟨l, r, h⟩
      rcases l with _ | ⟨x, l⟩
      · exact Or.inl ⟨r, by simpa using h⟩
      · rcases List.cons.injEq .. ▸ h with ⟨rfl, h2⟩
        exact Or.inr ⟨l, r, h2⟩

theorem toPattern_no_dot (fid : String) (h : ∀ c ∈ fid.data, c ≠ '.') :
    toPattern fid = fid.data.map PatItem.lit := by
  refine List.map_congr_left fun c hc => ?_
  have : (c == '.') = false := by
    simpa using h c hc
  simp [this]

/-! C8.  Flight-id query.  `df['id'].str.contains(flightid)` is a regular
expression search, not a plain substring test, so a pattern containing
metacharacters (modelled here: the `.` wildcard) can match identifiers of
which it is not a substring. -/

/-- C8 counterexample: the query string `A.C` returns the whole `ABC` track
even though `A.C` is not a substring of `ABC`. -/
theorem flightid_query_regex_counterexample :
    read_adsb_byflightid rowsC8 0 "A.C" noKw = some outC8 ∧
    ¬ SubstrOf (String.data "A.C") (String.data "ABC") := by
  refine ⟨by decide, fun h => ?_⟩
  have h2 := (reSearch_lit (String.data "A.C") (String.data "ABC")).mpr h
  exact absurd h2 (by decide)

/-- C8 amended: for a flight id free of regex metacharacters (no `.` in the
modelled fragment) the query returns exactly the fixes of the base pipeline
output whose resolved identifier contains the flight id as a substring, with
full fix detail retained. -/
theorem flightid_query_substring (rows : List RawRow) (ref : ℤ) (fid : String)
    (skw : SuppliedKw) (base out : List Fix)
    (hnodot : ∀ c ∈ fid.data, c ≠ '.')
    (hbase : read_adsb rows ref
      ⟨skw.downsample.getD none, skw.floor.getD none, skw.ceiling.getD none⟩ = some base)
    (hout : read_adsb_byflightid rows ref fid skw = some out) :
    ∀ f, f ∈ out ↔ f ∈ base ∧ SubstrOf fid.data f.id.data := by
  rw [read_adsb_byflightid, hbase, Option.some_inj] at hout
  subst hout
  intro f
  rw [List.mem_filter, strContains, toPattern_no_dot fid hnodot, reSearch_lit]

/-- C8 witness: querying `AB` on the `ABC` track is a plain substring
match. -/
theorem flightid_query_substring_witness :
    mkFix "ABC" 200 0 ∈ outC8 ↔
      mkFix "ABC" 200 0 ∈ outC8 ∧ SubstrOf (String.data "AB") (String.data "ABC") :=
  flightid_query_substring rowsC8 0 "AB" noKw outC8 outC8
    (by decide) (by decide) (by decide) (mkFix "ABC" 200 0)

/-! Lemmas about the first-minimum scan of the day-boundary resolver. -/

theorem minIdxAux_spec : ∀ (xs : List ℚ) (bi i : Nat) (bv : ℚ),
    (minIdxAux bi bv i xs = bi ∧ ∀ k (hk : k < xs.length), bv ≤ xs.get ⟨k, hk⟩) ∨
    (∃ k, ∃ hk : k < xs.length, minIdxAux bi bv i xs = i + k ∧
      xs.get ⟨k, hk⟩ < bv ∧
      (∀ m (hm : m < xs.length), xs.get ⟨k, hk⟩ ≤ xs.get ⟨m, hm⟩) ∧
      (∀ m (hm : m < k), xs.get ⟨k, hk⟩ < xs.get ⟨m, Nat.lt_trans hm hk⟩)) := by
  intro xs
  induction xs with
  | nil =>
    intro bi i bv
    left
    exact ⟨rfl, fun k hk => absurd hk (by simp)⟩
  | cons x xs ih =>
    intro bi i bv
    by_cases hx : x < bv
    · rw [minIdxAux, if_pos hx]
      rcases ih i (i + 1) x with ⟨heq, hall⟩ | ⟨k, hk, heq, hlt, hmn, hfst⟩
      · right
        refine ⟨0, by simp, by rw [heq]; omega, hx, ?_, ?_⟩
        · intro m hm
          cases m with
          | zero => exact le_refl x
          | succ m2 => exact hall m2 (by simpa using hm)
        · intro m hm
          exact absurd hm (Nat.not_lt_zero m)
      · right
        refine ⟨k + 1, by simpa using Nat.succ_lt_succ hk, by rw [heq]; omega,
          lt_trans hlt hx, ?_, ?_⟩
        · intro m hm
          cases m with
          | zero => exact le_of_lt hlt
          | succ m2 => exact hmn m2 (by simpa using hm)
        · intro m hm
          cases m with
          | zero => exact hlt
          | succ m2 => exact hfst m2 (by omega)
    · rw [minIdxAux, if_neg hx]
      have hbvx : bv ≤ x := le_of_not_lt hx
      rcases ih bi (i + 1) bv with ⟨heq, hall⟩ | ⟨k, hk, heq, hlt, hmn, hfst⟩
      · left
        refine ⟨heq, ?_⟩
        intro k hk
        cases k with
        | zero => exact hbvx
        | succ k2 => exact hall k2 (by simpa using hk)
      · right
        refine ⟨k + 1, by simpa using Nat.succ_lt_succ hk, by rw [heq]; omega,
          hlt, ?_, ?_⟩
        · intro m hm
          cases m with
          | zero => exact le_of_lt (lt_of_lt_of_le hlt hbvx)
          | succ m2 => exact hmn m2 (by simpa using hm)
        · intro m hm
          cases m with
          | zero => exact lt_of_lt_of_le hlt hbvx
          | succ m2 => exact hfst m2 (by omega)

theorem dayidxOf_eq (ts : List ℚ) (d : Nat) (hd : d < ts.length)
    (hmin : ∀ i (hi : i < ts.length), ts.get ⟨d, hd⟩ ≤ ts.get ⟨i, hi⟩)
    (hfirst : ∀ j (hj : j < ts.length), j < d → ts.get ⟨d, hd⟩ < ts.get ⟨j, hj⟩) :
    dayidxOf ts = d := by
  cases ts with
  | nil => simp at hd
  | cons tp tps =>
    rw [dayidxOf]
    rcases minIdxAux_spec tps 0 1 tp with ⟨heq, hall⟩ | ⟨k, hk, heq, hlt, hmn, hfst⟩
    · rw [heq]
      cases d with
      | zero => rfl
      | succ d2 =>
        have h1 := hfirst 0 (by simp) (by omega)
        have h2 := hall d2 (by simpa using hd)
        exact absurd h1 (not_lt.mpr h2)
    · rw [heq]
      cases d with
      | zero =>
        have h1 := hmin (k + 1) (by simpa using Nat.succ_lt_succ hk)
        exact absurd (lt_of_le_of_lt h1 hlt) (lt_irrefl tp)
      | succ d2 =>
        have hd2 : d2 < tps.length := by simpa using hd
        rcases Nat.lt_trichotomy d2 k with hlt2 | rfl | hgt
        · have h1 := hfst d2 hlt2
          have h2 := hmin (k + 1) (by simpa using Nat.succ_lt_succ hk)
          exact absurd (lt_of_le_of_lt h2 h1) (lt_irrefl _)
        · omega
        · have h1 := hfirst (k + 1) (by simpa using Nat.succ_lt_succ hk) (by omega)
          have h2 := hmn d2 hd2
          exact absurd (lt_of_le_of_lt h2 h1) (lt_irrefl _)


/-! C1.  Day-boundary resolution. -/

/-- C1: for a non-empty normalized sequence, let `d` be the index of the first
row attaining the minimum time-of-day; every row strictly before `d` is
stamped with the previous day (`ref - 86400` seconds) plus its time-of-day
and every row from `d` onward with the reference day; if the minimum is at
index 0 every row gets the reference day. -/
theorem day_boundary_resolution (ref : ℤ) (rows : List NRow) (out : List Fix)
    (d : Nat) (hd : d < rows.length)
    (hmin : ∀ i (hi : i < rows.length),
      (rows.get ⟨d, hd⟩).timeforpos ≤ (rows.get ⟨i, hi⟩).timeforpos)
    (hfirst : ∀ j (hj : j < rows.length), j < d →
      (rows.get ⟨d, hd⟩).timeforpos < (rows.get ⟨j, hj⟩).timeforpos)
    (hout : resolveDay ref rows = some out) :
    out.length = rows.length ∧
    (∀ i (hi : i < rows.length),
      out[i]? = some (stamp (if i < d then ref - 86400 else ref) (rows.get ⟨i, hi⟩))) ∧
    (d = 0 → ∀ i (hi : i < rows.length),
      out[i]? = some (stamp ref (rows.get ⟨i, hi⟩))) := by
  have hdayidx : dayidxOf (rows.map (fun r => r.timeforpos)) = d := by
    refine dayidxOf_eq _ d (by simpa using hd) ?_ ?_
    · intro i hi
      have hi2 : i < rows.length := by simpa using hi
      have e1 : (rows.map (fun r => r.timeforpos)).get ⟨d, by simpa using hd⟩ =
          (rows.get ⟨d, hd⟩).timeforpos := by simp
      have e2 : (rows.map (fun r => r.timeforpos)).get ⟨i, hi⟩ =
          (rows.get ⟨i, hi2⟩).timeforpos := by simp
      rw [e1, e2]
      exact hmin i hi2
    · intro j hj hjd
      have hj2 : j < rows.length := by simpa using hj
      have e1 : (rows.map (fun r => r.timeforpos)).get ⟨d, by simpa using hd⟩ =
          (rows.get ⟨d, hd⟩).timeforpos := by simp
      have e2 : (rows.map (fun r => r.timeforpos)).get ⟨j, hj⟩ =
          (rows.get ⟨j, hj2⟩).timeforpos := by simp
      rw [e1, e2]
      exact hfirst j hj2 hjd
  have hne : rows ≠ [] := by
    intro h
    rw [h] at hd
    simp at hd
  have hout2 : out = (rows.take d).map (stamp (ref - 86400)) ++
      (rows.drop d).map (stamp ref) := by
    cases rows with
    | nil => exact absurd rfl hne
    | cons r rs =>
      simp only [resolveDay, hdayidx, Option.some_inj] at hout
      exact hout.symm
  have hdle : d ≤ rows.length := le_of_lt hd
  have hlen : out.length = rows.length := by
    rw [hout2]
    simp
    omega
  have hmain : ∀ i (hi : i < rows.length),
      out[i]? = some (stamp (if i < d then ref - 86400 else ref) (rows.get ⟨i, hi⟩)) := by
    intro i hi
    by_cases hid : i < d
    · have hfirstlen : i < ((rows.take d).map (stamp (ref - 86400))).length := by
        simp
        omega
      rw [hout2, List.getElem?_append_left hfirstlen, List.getElem?_map,
        List.getElem?_take, if_pos hid, List.getElem?_eq_getElem hi, if_pos hid]
      rfl
    · have hfirstlen : ((rows.take d).map (stamp (ref - 86400))).length ≤ i := by
        simp
        omega
      rw [hout2, List.getElem?_append_right hfirstlen, List.getElem?_map,
        List.getElem?_drop, if_neg hid]
      have hidx : d + (i - ((rows.take d).map (stamp (ref - 86400))).length) = i := by
        simp
        omega
      rw [hidx, List.getElem?_eq_getElem hi]
      rfl
  refine ⟨hlen, hmain, ?_⟩
  intro hd0 i hi
  rw [hmain i hi, hd0, if_neg (by omega)]

/-- C1 witness: the spec's day-boundary example shape; times 23:58, 23:59,
then 10 s and 20 s after midnight, minimum at index 2: the first two rows get
the previous day, the rest the reference day. -/
theorem day_boundary_resolution_witness :
    (resolveDay 0 rowsC1n).elim False (fun out => out.length = 4) := by
  have h := day_boundary_resolution 0 rowsC1n outC1 2 (by decide)
    (by decide) (by decide) (by decide)
  rw [show resolveDay 0 rowsC1n = some outC1 from by decide]
  exact h.1

/-! Lemmas about gap indices and the suffixing loop. -/

theorem gapAt_nil (m : Nat) : gapAt [] m = false := by
  simp [gapAt]

theorem gapAt_single (a : Fix) (m : Nat) : gapAt [a] m = false := by
  cases hm : ([a] : List Fix)[m]? <;>
    simp [gapAt, hm, List.getElem?_cons_succ]

theorem gapAt_cons_succ (a : Fix) (l : List Fix) (m : Nat) :
    gapAt (a :: l) (m + 1) = gapAt l m := by
  simp [gapAt]

theorem gapAt_cons_zero (a b : Fix) (rest : List Fix) :
    gapAt (a :: b :: rest) 0 = bigGap a b := by
  simp [gapAt]

theorem gapIndicesAux_mem : ∀ (l : List Fix) (i j : Nat),
    j ∈ gapIndicesAux i l ↔ i ≤ j ∧ gapAt l (j - i) = true := by
  intro l
  induction l with
  | nil => intro i j; simp [gapIndicesAux, gapAt_nil]
  | cons a l ih =>
    cases l with
    | nil => intro i j; simp [gapIndicesAux, gapAt_single]
    | cons b rest =>
      intro i j
      by_cases hg : bigGap a b
      · rw [gapIndicesAux, if_pos hg]
        rw [List.mem_cons, ih (i + 1) j]
        constructor
        · rintro (rfl | ⟨hij, hgap⟩)
          · exact ⟨le_refl j, by rw [Nat.sub_self, gapAt_cons_zero]; exact hg⟩
          · refine ⟨by omega, ?_⟩
            rw [show j - i = (j - (i + 1)) + 1 from by omega, gapAt_cons_succ]
            exact hgap
        · rintro ⟨hij, hgap⟩
          rcases Nat.eq_or_lt_of_le hij with rfl | hlt
          · exact Or.inl rfl
          · refine Or.inr ⟨by omega, ?_⟩
            rw [show j - (i + 1) = (j - i) - 1 from by omega]
            rw [show j - i = ((j - i) - 1) + 1 from by omega, gapAt_cons_succ] at hgap
            exact hgap
      · rw [gapIndicesAux, if_neg hg]
        rw [ih (i + 1) j]
        constructor
        · rintro ⟨hij, hgap⟩
          refine ⟨by omega, ?_⟩
          rw [show j - i = (j - (i + 1)) + 1 from by omega, gapAt_cons_succ]
          exact hgap
        · rintro ⟨hij, hgap⟩
          rcases Nat.eq_or_lt_of_le hij with rfl | hlt
          · rw [Nat.sub_self, gapAt_cons_zero] at hgap
            exact absurd hgap (by simpa using hg)
          · refine ⟨by omega, ?_⟩
            rw [show j - (i + 1) = (j - i) - 1 from by omega]
            rw [show j - i = ((j - i) - 1) + 1 from by omega, gapAt_cons_succ] at hgap
            exact hgap

theorem gapIndicesAux_pairwise : ∀ (l : List Fix) (i : Nat),
    (gapIndicesAux i l).Pairwise (· < ·) := by
  intro l
  induction l with
  | nil => intro i; simp [gapIndicesAux]
  | cons a l ih =>
    cases l with
    | nil => intro i; simp [gapIndicesAux]
    | cons b rest =>
      intro i
      by_cases hg : bigGap a b
      · rw [gapIndicesAux, if_pos hg]
        refine List.Pairwise.cons ?_ (ih (i + 1))
        intro j hj
        have := (gapIndicesAux_mem (b :: rest) (i + 1) j).mp hj
        omega
      · rw [gapIndicesAux, if_neg hg]
        exact ih (i + 1)

theorem mem_gapIndices (l : List Fix) (j : Nat) :
    j ∈ gapIndices l ↔ gapAt l j = true := by
  rw [gapIndices, gapIndicesAux_mem]
  simp

theorem gapIndices_pairwise (l : List Fix) : (gapIndices l).Pairwise (· < ·) :=
  gapIndicesAux_pairwise l 0

theorem overwriteTail_getElem? (newid : String) (cut : Nat) (l : List Fix) (p : Nat) :
    (overwriteTail newid cut l)[p]? =
      l[p]?.map (fun f => if cut ≤ p then { f with id := newid } else f) := by
  simp [overwriteTail]

theorem foldl_retagStep (base : String) :
    ∀ (js : List Nat), js.Pairwise (· < ·) →
    ∀ (l : List Fix) (s : Nat) (p : Nat),
      ((js.foldl (retagStep base) (l, s)).1)[p]? =
        l[p]?.map (fun f =>
          if js.countP (fun j => decide (j < p)) = 0 then f
          else { f with id := suffixName base (s + js.countP (fun j => decide (j < p)) - 1) }) := by
  intro js
  induction js with
  | nil =>
    intro hp l s p
    simp
  | cons j js ih =>
    intro hp l s p
    rw [List.foldl_cons,
      show retagStep base (l, s) j = (overwriteTail (suffixName base s) (j + 1) l, s + 1)
        from rfl,
      ih (List.Pairwise.of_cons hp) (overwriteTail (suffixName base s) (j + 1) l) (s + 1) p,
      overwriteTail_getElem?]
    cases hlp : l[p]? with
    | none => rfl
    | some f =>
      simp only [Option.map_some', Option.some_inj]
      rw [List.countP_cons]
      by_cases hjp : j < p
      · have hd : decide (j < p) = true := by simpa using hjp
        rw [if_pos (show j + 1 ≤ p from hjp), hd, if_pos rfl]
        by_cases hcnt : js.countP (fun e => decide (e < p)) = 0
        · rw [hcnt, if_pos rfl, if_neg (by omega)]
          simp
        · rw [if_neg hcnt, if_neg (by omega)]
          congr 2
          omega
      · have hd : decide (j < p) = false := by simpa using hjp
        have hjall : ∀ e ∈ js, j < e := (List.pairwise_cons.mp hp).1
        have hc0 : js.countP (fun e => decide (e < p)) = 0 :=
          List.countP_eq_zero.mpr (fun e he => by
            have h2 := hjall e he
            simp only [decide_eq_true_eq]
            omega)
        rw [if_neg (show ¬ (j + 1 ≤ p) from by omega), hd, hc0]
        simp

theorem countP_gapIndices_eq_gapsBefore (l : List Fix) (p : Nat) :
    (gapIndices l).countP (fun j => decide (j < p)) = gapsBefore l p := by
  rw [List.countP_eq_length_filter, gapsBefore, List.countP_eq_length_filter]
  have hnd1 : ((gapIndices l).filter (fun j => decide (j < p))).Pairwise (· < ·) :=
    (gapIndices_pairwise l).filter _
  have hnd2 : ((List.range p).filter (gapAt l)).Pairwise (· < ·) :=
    (List.pairwise_lt_range p).filter _
  haveI : IsAntisymm ℕ (· < ·) :=
    ⟨fun a b h1 h2 => absurd h2 (Nat.lt_asymm h1)⟩
  have heq : (gapIndices l).filter (fun j => decide (j < p)) =
      (List.range p).filter (gapAt l) := by
    apply List.eq_of_perm_of_sorted ?_ hnd1 hnd2
    apply (List.perm_ext_iff_of_nodup
      (hnd1.imp fun h => Nat.ne_of_lt h) (hnd2.imp fun h => Nat.ne_of_lt h)).mpr
    intro j
    simp only [List.mem_filter, mem_gapIndices, List.mem_range, decide_eq_true_eq]
    tauto
  rw [heq]

theorem retagGroup_getElem? (base : String) (l : List Fix) (p : Nat) :
    (retagGroup base l)[p]? =
      l[p]?.map (fun f =>
        if gapsBefore l p = 0 then f
        else { f with id := suffixName base (gapsBefore l p) }) := by
  rw [retagGroup, foldl_retagStep base (gapIndices l) (gapIndices_pairwise l) l 1 p,
    countP_gapIndices_eq_gapsBefore]
  cases hlp : l[p]? with
  | none => rfl
  | some f =>
    simp only [Option.map_some', Option.some_inj]
    by_cases hc : gapsBefore l p = 0
    · rw [if_pos hc, if_pos hc]
    · rw [if_neg hc, if_neg hc,
        show 1 + gapsBefore l p - 1 = gapsBefore l p from by omega]

/-! C2.  Track segmentation and suffixing. -/

/-- C2: within one base identifier's group (positions and all non-identifier
fields preserved), the fix at position `p` is re-tagged with the resolved
identifier of its segment: the base identifier when no more-than-15-minute
adjacent gap lies strictly before `p`, and `{base}_{n}` when `n ≥ 1` such
gaps do; so a group with exactly 3 gaps yields the identifiers `base`,
`base_1`, `base_2`, `base_3` in feed order. -/
theorem track_segmentation_suffixing (base : String) (l : List Fix)
    (hbase : ∀ f ∈ l, f.id = base) (p : Nat) :
    (retagGroup base l)[p]? =
      l[p]?.map (fun f => { f with id := segLabel base (gapsBefore l p) }) := by
  rw [retagGroup_getElem?]
  cases hlp : l[p]? with
  | none => rfl
  | some f =>
    simp only [Option.map_some', Option.some_inj]
    rw [segLabel]
    by_cases hc : gapsBefore l p = 0
    · rw [if_pos hc, if_pos hc]
      have hf : f.id = base := hbase f (List.getElem?_mem hlp)
      rw [← hf]
    · rw [if_neg hc, if_neg hc]

/-- C2 witness: a concrete group with exactly 3 gaps; the fix at position 5
(after the third gap) is re-tagged `A_3`. -/
theorem track_segmentation_suffixing_witness :
    (retagGroup "A" rowsC2g)[5]? = some (mkFix "A_3" 200 6100) := by
  rw [track_segmentation_suffixing "A" rowsC2g (by decide) 5]
  decide

/-! Lemmas about key sorting and group reassembly. -/

theorem foldl_append_eq (g : String → List Fix) :
    ∀ (ks : List String) (acc : List Fix),
      ks.foldl (fun a k => a ++ g k) acc = acc ++ (ks.map g).flatten := by
  intro ks
  induction ks with
  | nil => intro acc; simp
  | cons k ks ih =>
    intro acc
    rw [List.foldl_cons, ih, List.map_cons, List.flatten_cons, List.append_assoc]

theorem segmentAll_eq_flatten (l : List Fix) :
    segmentAll l = ((groupKeys l).map (fun k => retagGroup k (groupOf l k))).flatten := by
  rw [segmentAll, foldl_append_eq (fun k => retagGroup k (groupOf l k)) (groupKeys l) []]
  rfl

theorem insertKey_perm (s : String) : ∀ ks, List.Perm (insertKey s ks) (s :: ks) := by
  intro ks
  induction ks with
  | nil => exact List.Perm.refl _
  | cons k ks ih =>
    rw [insertKey]
    by_cases h : keyLE s k = true
    · rw [if_pos h]
    · rw [if_neg h]
      exact List.Perm.trans (List.Perm.cons k ih) (List.Perm.swap s k ks)

theorem sortKeys_perm : ∀ ks, List.Perm (sortKeys ks) ks := by
  intro ks
  induction ks with
  | nil => exact List.Perm.refl _
  | cons k ks ih =>
    rw [sortKeys]
    exact List.Perm.trans (insertKey_perm k (sortKeys ks)) (List.Perm.cons k ih)

theorem mem_groupKeys (l : List Fix) (k : String) :
    k ∈ groupKeys l ↔ k ∈ l.map (fun f => f.id) := by
  rw [groupKeys]
  exact (sortKeys_perm _).mem_iff.trans (mem_distinctKeys _ k)

theorem groupKeys_nodup (l : List Fix) : (groupKeys l).Nodup :=
  ((sortKeys_perm _).nodup_iff).mpr (distinctKeys_nodup _)

theorem flatten_groups_perm : ∀ (ks : List String) (l : List Fix),
    ks.Nodup → (∀ f ∈ l, f.id ∈ ks) →
    List.Perm ((ks.map (fun k => groupOf l k)).flatten) l := by
  intro ks
  induction ks with
  | nil =>
    intro l _ hcov
    have hl : l = [] :=
      List.eq_nil_iff_forall_not_mem.mpr (fun f hf => by simpa using hcov f hf)
    rw [hl]
    exact List.Perm.refl _
  | cons k ks ih =>
    intro l hnd hcov
    rw [List.map_cons, List.flatten_cons]
    have hnd2 := List.pairwise_cons.mp hnd
    have hmap : ks.map (fun x => groupOf l x) =
        ks.map (fun x => groupOf (l.filter (fun f => !(f.id == k))) x) := by
      refine List.map_congr_left fun x hx => ?_
      have hxk : k ≠ x := hnd2.1 x hx
      rw [groupOf, groupOf, List.filter_filter]
      refine List.filter_congr fun f _ => ?_
      by_cases hfx : f.id = x
      · simp [hfx, hxk.symm]
      · simp [hfx]
    rw [hmap]
    have hcov2 : ∀ f ∈ l.filter (fun f => !(f.id == k)), f.id ∈ ks := by
      intro f hf
      rcases List.mem_filter.mp hf with ⟨hfl, hpred⟩
      rcases List.mem_cons.mp (hcov f hfl) with heq | hmem
      · rw [heq] at hpred
        simp at hpred
      · exact hmem
    have hperm2 := ih (l.filter (fun f => !(f.id == k))) hnd2.2 hcov2
    refine List.Perm.trans (List.Perm.append_left _ hperm2) ?_
    rw [groupOf]
    exact List.filter_append_perm _ l

theorem gapIndicesAux_eq_nil_of_chainBounded : ∀ (l : List Fix),
    chainBounded l → ∀ i, gapIndicesAux i l = [] := by
  intro l
  induction l with
  | nil => intro h i; rfl
  | cons a l ih =>
    cases l with
    | nil => intro h i; rfl
    | cons b rest =>
      rintro ⟨hb, hrest⟩ i
      rw [gapIndicesAux, if_neg ?_]
      · exact ih hrest (i + 1)
      · simp only [bigGap, Bool.or_eq_true, decide_eq_true_eq, not_or, not_lt]
        omega

theorem retagGroup_eq_of_chainBounded (base : String) (l : List Fix)
    (h : chainBounded l) : retagGroup base l = l := by
  rw [retagGroup, gapIndices, gapIndicesAux_eq_nil_of_chainBounded l h 0]
  rfl

/-! C9.  Idempotence of segmentation.  Note: the segmenter reassembles the
groups in sorted key order, so the output sequence is a permutation of the
input whose fixes, and in particular their identifiers, are all unchanged
(the spec makes cross-group order non-contractual). -/

/-- C9: on an already-segmented input — no two consecutive fixes of any
resolved identifier's track more than 15 minutes apart — the segmenter splits
nothing: every fix is returned unchanged (as a permutation regrouped by
identifier), so every fix keeps its identifier. -/
theorem segmenter_idempotent (l : List Fix)
    (h : ∀ k ∈ l.map (fun f => f.id), chainBounded (groupOf l k)) :
    List.Perm (segmentAll l) l := by
  rw [segmentAll_eq_flatten]
  have hmap : (groupKeys l).map (fun k => retagGroup k (groupOf l k)) =
      (groupKeys l).map (fun k => groupOf l k) := by
    refine List.map_congr_left fun k hk => ?_
    exact retagGroup_eq_of_chainBounded k _ (h k ((mem_groupKeys l k).mp hk))
  rw [hmap]
  exact flatten_groups_perm (groupKeys l) l (groupKeys_nodup l)
    (fun f hf => (mem_groupKeys l f.id).mpr (List.mem_map_of_mem _ hf))

/-- C9 witness: a two-fix already-segmented input; the segmenter only regroups
it. -/
theorem segmenter_idempotent_witness : List.Perm (segmentAll rowsC9) rowsC9 :=
  segmenter_idempotent rowsC9 (by decide)

/-! Lemmas on the decimal rendering: the suffix naming is injective. -/

theorem natDigitsAux_fuel : ∀ (n f1 f2 : Nat), n < f1 → n < f2 →
    natDigitsAux f1 n = natDigitsAux f2 n := by
  intro n
  induction n using Nat.strong_induction_on with
  | _ n ih =>
    intro f1 f2 h1 h2
    cases f1 with
    | zero => omega
    | succ g1 =>
      cases f2 with
      | zero => omega
      | succ g2 =>
        rw [natDigitsAux, natDigitsAux]
        by_cases hn : n < 10
        · rw [if_pos hn, if_pos hn]
        · rw [if_neg hn, if_neg hn]
          have hd : n / 10 < n := Nat.div_lt_self (by omega) (by omega)
          rw [ih (n / 10) hd g1 g2 (by omega) (by omega)]

theorem natDigits_eqn (n : Nat) :
    natDigits n = if n < 10 then [natDigitChar n]
      else natDigits (n / 10) ++ [natDigitChar (n % 10)] := by
  rw [natDigits, natDigitsAux]
  by_cases hn : n < 10
  · rw [if_pos hn, if_pos hn]
  · rw [if_neg hn, if_neg hn, natDigits]
    have hd : n / 10 < n := Nat.div_lt_self (by omega) (by omega)
    rw [natDigitsAux_fuel (n / 10) n (n / 10 + 1) hd (by omega)]


theorem natDigitChar_inj : ∀ d, d < 10 → ∀ e, e < 10 →
    natDigitChar d = natDigitChar e → d = e := by decide

theorem natDigits_ne_nil (n : Nat) : natDigits n ≠ [] := by
  rw [natDigits_eqn]
  by_cases hn : n < 10
  · rw [if_pos hn]
    simp
  · rw [if_neg hn]
    simp

theorem natDigits_inj : ∀ (m : Nat), ∀ n, natDigits m = natDigits n → m = n := by
  intro m
  induction m using Nat.strong_induction_on with
  | _ m ih =>
    intro n h
    rw [natDigits_eqn m, natDigits_eqn n] at h
    by_cases hm : m < 10 <;> by_cases hn : n < 10
    · rw [if_pos hm, if_pos hn] at h
      exact natDigitChar_inj m hm n hn (by simpa using h)
    · rw [if_pos hm, if_neg hn] at h
      have hlen := congrArg List.length h
      have hne : (natDigits (n / 10)).length ≠ 0 := by
        simpa [List.length_eq_zero] using natDigits_ne_nil (n / 10)
      rw [List.length_append] at hlen
      simp only [List.length_cons, List.length_nil] at hlen
      omega
    · rw [if_neg hm, if_pos hn] at h
      have hlen := congrArg List.length h
      have hne : (natDigits (m / 10)).length ≠ 0 := by
        simpa [List.length_eq_zero] using natDigits_ne_nil (m / 10)
      rw [List.length_append] at hlen
      simp only [List.length_cons, List.length_nil] at hlen
      omega
    · rw [if_neg hm, if_neg hn] at h
      have hsp := List.append_inj' h (by simp)
      have h1 : m / 10 = n / 10 :=
        ih (m / 10) (Nat.div_lt_self (by omega) (by omega)) (n / 10) hsp.1
      have h2 : m % 10 = n % 10 := by
        have hc : natDigitChar (m % 10) = natDigitChar (n % 10) := by
          simpa using hsp.2
        exact natDigitChar_inj _ (Nat.mod_lt _ (by omega)) _ (Nat.mod_lt _ (by omega)) hc
      omega

theorem suffixName_inj (base : String) (c1 c2 : Nat)
    (h : suffixName base c1 = suffixName base c2) : c1 = c2 := by
  have hd : base.data ++ (("_" : String).data ++ natDigits c1) =
      base.data ++ (("_" : String).data ++ natDigits c2) := by
    have h2 := congrArg String.data h
    simpa [suffixName, natRepr, String.data_append] using h2
  have h3 : natDigits c1 = natDigits c2 :=
    List.append_cancel_left (List.append_cancel_left hd)
  exact natDigits_inj c1 c2 h3

theorem suffixName_ne_base (base : String) (c : Nat) : suffixName base c ≠ base := by
  intro h
  have hd := congrArg (fun s => s.data.length) h
  have hne : (natDigits c).length ≠ 0 := by
    simpa [List.length_eq_zero] using natDigits_ne_nil c
  have h1 : (("_" : String).data).length = 1 := rfl
  simp only [suffixName, natRepr, String.data_append, List.length_append, h1] at hd
  omega

theorem segLabel_inj (base : String) (c1 c2 : Nat)
    (h : segLabel base c1 = segLabel base c2) : c1 = c2 := by
  rw [segLabel, segLabel] at h
  by_cases h1 : c1 = 0 <;> by_cases h2 : c2 = 0
  · omega
  · rw [if_pos h1, if_neg h2] at h
    exact absurd h.symm (suffixName_ne_base base c2)
  · rw [if_neg h1, if_pos h2] at h
    exact absurd h (suffixName_ne_base base c1)
  · rw [if_neg h1, if_neg h2] at h
    exact suffixName_inj base c1 c2 h

/-! Lemmas about the gap count before a position. -/

theorem gapsBefore_mono (l : List Fix) {p q : Nat} (h : p ≤ q) :
    gapsBefore l p ≤ gapsBefore l q := by
  rw [gapsBefore, gapsBefore]
  exact List.Sublist.countP_le (gapAt l) (List.range_sublist.mpr h)

theorem gapsBefore_succ (l : List Fix) (p : Nat) :
    gapsBefore l (p + 1) = gapsBefore l p + (if gapAt l p then 1 else 0) := by
  rw [gapsBefore, gapsBefore, List.range_succ, List.countP_append]
  cases hg : gapAt l p <;> simp [List.countP_cons, hg]

/-! Lemmas assembling the gap invariant. -/

theorem chainBounded_cons_cons {a b : Fix} {rest : List Fix} :
    chainBounded (a :: b :: rest) ↔
      ((b.t - a.t).natAbs ≤ 900 ∧ chainBounded (b :: rest)) :=
  Iff.rfl

theorem chainBounded_filter (pred : Fix → Bool) :
    ∀ l : List Fix,
      (∀ xs a ys b zs, l = xs ++ a :: (ys ++ b :: zs) → pred a = true → pred b = true →
        (∀ y ∈ ys, pred y = false) → (b.t - a.t).natAbs ≤ 900) →
      chainBounded (l.filter pred) := by
  intro l
  induction l with
  | nil => intro H; exact trivial
  | cons x l ih =>
    intro H
    by_cases hx : pred x = true
    · rw [List.filter_cons_of_pos hx]
      cases hfl : l.filter pred with
      | nil => exact trivial
      | cons y rest =>
        refine chainBounded_cons_cons.mpr ⟨?_, ?_⟩
        · rcases List.filter_eq_cons_iff.mp hfl with ⟨l1, l2, hl, hl1, hy, hl2⟩
          refine H [] x l1 y l2 (by rw [hl]; simp) hx (by simpa using hy) ?_
          intro yy hyy
          simpa using hl1 yy hyy
        · rw [← hfl]
          exact ih (fun xs a ys b zs hsplit ha hb hys =>
            H (x :: xs) a ys b zs (by rw [hsplit]; rfl) ha hb hys)
    · rw [List.filter_cons_of_neg (by simpa using hx)]
      exact ih (fun xs a ys b zs hsplit ha hb hys =>
        H (x :: xs) a ys b zs (by rw [hsplit]; rfl) ha hb hys)

theorem retag_id_at (base : String) (g : List Fix)
    (hbase : ∀ f ∈ g, f.id = base) (p : Nat) (f : Fix)
    (hf : (retagGroup base g)[p]? = some f) :
    ∃ f0, g[p]? = some f0 ∧ f.t = f0.t ∧ f.id = segLabel base (gapsBefore g p) := by
  rw [retagGroup_getElem? base g p] at hf
  rcases Option.map_eq_some'.mp hf with ⟨f0, hf0, hfe⟩
  by_cases hc : gapsBefore g p = 0
  · rw [if_pos hc] at hfe
    refine ⟨f0, hf0, by rw [← hfe], ?_⟩
    rw [segLabel, if_pos hc, ← hfe]
    exact hbase f0 (List.getElem?_mem hf0)
  · rw [if_neg hc] at hfe
    refine ⟨f0, hf0, by rw [← hfe], ?_⟩
    rw [segLabel, if_neg hc, ← hfe]

theorem chain_retagGroup (base : String) (g : List Fix)
    (hbase : ∀ f ∈ g, f.id = base) (k : String) :
    chainBounded (groupOf (retagGroup base g) k) := by
  rw [groupOf]
  apply chainBounded_filter
  intro xs a ys b zs hsplit ha hb hys
  have hak : a.id = k := by simpa using ha
  have hbk : b.id = k := by simpa using hb
  have hpa : (retagGroup base g)[xs.length]? = some a := by
    rw [hsplit, List.getElem?_append_right (le_refl _), Nat.sub_self]
    simp
  rcases retag_id_at base g hbase xs.length a hpa with ⟨fa, hfa, hta, hida⟩
  cases ys with
  | cons y ys2 =>
    exfalso
    have hpy : (retagGroup base g)[xs.length + 1]? = some y := by
      rw [hsplit, List.getElem?_append_right (by omega),
        show xs.length + 1 - xs.length = 1 from by omega]
      simp
    have hpb : (retagGroup base g)[xs.length + 1 + (ys2.length + 1)]? = some b := by
      rw [hsplit, List.getElem?_append_right (by omega),
        show xs.length + 1 + (ys2.length + 1) - xs.length = (y :: ys2).length + 1
          from by simp; omega,
        List.getElem?_cons_succ,
        List.getElem?_append_right (le_refl _), Nat.sub_self]
      simp
    rcases retag_id_at base g hbase (xs.length + 1) y hpy with ⟨fy, hfy, hty, hidy⟩
    rcases retag_id_at base g hbase (xs.length + 1 + (ys2.length + 1)) b hpb with
      ⟨fb, hfb, htb, hidb⟩
    have hcab : gapsBefore g xs.length = gapsBefore g (xs.length + 1 + (ys2.length + 1)) :=
      segLabel_inj base _ _ (by rw [← hida, ← hidb, hak, hbk])
    have hcy : gapsBefore g (xs.length + 1) = gapsBefore g xs.length := by
      have h1 := gapsBefore_mono g (show xs.length ≤ xs.length + 1 from by omega)
      have h2 := gapsBefore_mono g
        (show xs.length + 1 ≤ xs.length + 1 + (ys2.length + 1) from by omega)
      omega
    have hyk : y.id = k := by
      rw [hidy, hcy, ← hida, hak]
    have := hys y (List.mem_cons_self y ys2)
    rw [← hyk] at this
    simp at this
  | nil =>
    have hpb : (retagGroup base g)[xs.length + 1]? = some b := by
      rw [hsplit, List.getElem?_append_right (by omega),
        show xs.length + 1 - xs.length = 1 from by omega]
      simp
    rcases retag_id_at base g hbase (xs.length + 1) b hpb with ⟨fb, hfb, htb, hidb⟩
    have hceq : gapsBefore g xs.length = gapsBefore g (xs.length + 1) :=
      segLabel_inj base _ _ (by rw [← hida, ← hidb, hak, hbk])
    have hgap : gapAt g xs.length = false := by
      have hsucc := gapsBefore_succ g xs.length
      cases hg : gapAt g xs.length
      · rfl
      · rw [hg] at hsucc
        simp at hsucc
        omega
    have hbg : bigGap fa fb = false := by
      rw [gapAt, hfa] at hgap
      rw [show xs.length + 1 = xs.length + 1 from rfl] at hgap
      rw [hfb] at hgap
      exact hgap
    rw [hta, htb]
    simp only [bigGap, Bool.or_eq_false_iff, decide_eq_false_iff_not, not_lt] at hbg
    omega

theorem chain_groupOf_flatten (k : String) : ∀ parts : List (List Fix),
    parts.Pairwise (fun p q => groupOf p k = [] ∨ groupOf q k = []) →
    (∀ p ∈ parts, chainBounded (groupOf p k)) →
    chainBounded (groupOf parts.flatten k) := by
  intro parts
  induction parts with
  | nil => intro _ _; exact trivial
  | cons p parts ih =>
    intro hpair hchain
    rw [List.flatten_cons, groupOf_append]
    rcases List.pairwise_cons.mp hpair with ⟨hhead, htail⟩
    by_cases hp : groupOf p k = []
    · rw [hp, List.nil_append]
      exact ih htail (fun q hq => hchain q (List.mem_cons_of_mem p hq))
    · have hrest : groupOf parts.flatten k = [] := by
        rw [groupOf, List.filter_eq_nil_iff]
        intro f hf hfk
        rcases List.mem_flatten.mp hf with ⟨q, hq, hfq⟩
        rcases hhead q hq with hc | hc
        · exact hp hc
        · have hmem : f ∈ groupOf q k := List.mem_filter.mpr ⟨hfq, hfk⟩
          rw [hc] at hmem
          simp at hmem
      rw [hrest, List.append_nil]
      exact hchain p (List.mem_cons_self p parts)

theorem applyDownsample_off (dsOpt : Option Nat)
    (h : dsOpt = none ∨ dsOpt = some 0) (l : List Fix) :
    applyDownsample dsOpt l = l := by
  rcases h with rfl | rfl <;> simp [applyDownsample, configuredNat]

/-! C3.  Gap invariant.  It fails in general: downsampling happens after
segmentation and can leave surviving fixes of one resolved identifier more
than 15 minutes apart (and a raw identifier colliding with a generated
suffixed identifier can merge unrelated segments into one track).  Without
downsampling and without such collisions the invariant holds. -/

/-- C3 counterexample: with a downsample stride of 2, the output track of
identifier `A` contains consecutive fixes 1200 s (20 minutes) apart. -/
theorem gap_invariant_counterexample :
    read_adsb rowsC3 0 kwC3 = some outC3 ∧ ¬ chainBounded (groupOf outC3 "A") := by
  exact ⟨by decide, by decide⟩

/-- C3 amended: if no downsampling is configured and distinct base-identifier
groups produce disjoint resolved identifiers, then in the pipeline output any
two consecutive fixes of one resolved identifier's track are at most
15 minutes apart. -/
theorem gap_invariant_no_downsample (rows : List RawRow) (ref : ℤ) (kw : Kwargs)
    (fixes out : List Fix)
    (hds : kw.downsample = none ∨ kw.downsample = some 0)
    (hfx : resolveDay ref (normalize kw.floor kw.ceiling rows) = some fixes)
    (hdisj : ∀ k1 ∈ groupKeys fixes, ∀ k2 ∈ groupKeys fixes, k1 ≠ k2 →
      ∀ f1 ∈ retagGroup k1 (groupOf fixes k1), ∀ f2 ∈ retagGroup k2 (groupOf fixes k2),
        f1.id ≠ f2.id)
    (hout : read_adsb rows ref kw = some out) :
    ∀ k, chainBounded (groupOf out k) := by
  intro k
  have hout2 : out = prune (segmentAll fixes) := by
    rw [read_adsb, dsTable, hfx] at hout
    simp only [Option.map_some', Option.some_inj] at hout
    rw [applyDownsample_off kw.downsample hds] at hout
    exact hout.symm
  rw [hout2, groupOf_prune]
  by_cases hc : 2 < (segmentAll fixes).countP (fun g => g.id == k)
  · rw [if_pos hc, segmentAll_eq_flatten]
    apply chain_groupOf_flatten
    · rw [List.pairwise_map]
      refine List.Pairwise.imp_of_mem ?_ (groupKeys_nodup fixes)
      intro k1 k2 h1 h2 hne
      by_contra hcon
      push_neg at hcon
      rcases hcon with ⟨hne1, hne2⟩
      rcases List.exists_mem_of_ne_nil _ hne1 with ⟨f1, hf1⟩
      rcases List.exists_mem_of_ne_nil _ hne2 with ⟨f2, hf2⟩
      rcases mem_groupOf.mp hf1 with ⟨hf1m, hf1k⟩
      rcases mem_groupOf.mp hf2 with ⟨hf2m, hf2k⟩
      exact hdisj k1 h1 k2 h2 hne f1 hf1m f2 hf2m (by rw [hf1k, hf2k])
    · intro part hpart
      rcases List.mem_map.mp hpart with ⟨key, hkey, rfl⟩
      exact chain_retagGroup key (groupOf fixes key)
        (fun f hf => (mem_groupOf.mp hf).2) k
  · rw [if_neg hc]
    exact trivial

/-- C3 witness: a gap-free single-identifier input with no downsampling; its
output track satisfies the 15-minute bound. -/
theorem gap_invariant_no_downsample_witness :
    chainBounded (groupOf outC3w "A") :=
  gap_invariant_no_downsample rowsC3w 0 defaultKwargs fixesC3w outC3w
    (Or.inl rfl) (by decide) (by decide) (by decide) "A"

end ADSB
